import Mathlib

/-!
Verification of the `merkle-tree` Rust crate: a SHA-256 Merkle tree over
byte-serializable elements, with existence-proof extraction and verification.

Elements are modelled by their serialized byte sequences (the `AsBytes` trait
is the only capability the code uses), bytes by `Nat` values below 256, and
`Hash` (`Vec<u8>` in `hash.rs`) by `List Nat`.

The development embeds:
  * `src/hash.rs`   — `hash_value`, `combine_hashes`, over an executable SHA-256;
  * `src/tree.rs`   — `MerkleTree`: `make_empty`, `from`, `root_hash`,
                      `prove_existence`, `sibling_index`, `anchored_hash`;
  * `src/proof.rs`  — `ExistenceProof`, `AnchoredHash`, `is_valid`;
  * `src/lib.rs`    — the monolithic variant, in namespace `Mono`.
-/

/-! ## SHA-256 (FIPS 180-4), executable over byte lists -/

/-- Modulus for 32-bit words. -/
def w32 : Nat := 4294967296

/-- Right rotation of a 32-bit word by `n` bits. -/
def rotr32 (n x : Nat) : Nat :=
  (x / 2 ^ n + x % 2 ^ n * 2 ^ (32 - n)) % w32

/-- Bitwise complement of a 32-bit word. -/
def not32 (x : Nat) : Nat := x ^^^ (w32 - 1)

def chF (x y z : Nat) : Nat := (x &&& y) ^^^ (not32 x &&& z)

def majF (x y z : Nat) : Nat := (x &&& y) ^^^ (x &&& z) ^^^ (y &&& z)

def bigSigma0 (x : Nat) : Nat := rotr32 2 x ^^^ rotr32 13 x ^^^ rotr32 22 x

def bigSigma1 (x : Nat) : Nat := rotr32 6 x ^^^ rotr32 11 x ^^^ rotr32 25 x

def smallSigma0 (x : Nat) : Nat := rotr32 7 x ^^^ rotr32 18 x ^^^ (x >>> 3)

def smallSigma1 (x : Nat) : Nat := rotr32 17 x ^^^ rotr32 19 x ^^^ (x >>> 10)

/-- Round constants of SHA-256, in decimal. -/
def sha256K : List Nat :=
  [1116352408, 1899447441, 3049323471, 3921009573,
   961987163, 1508970993, 2453635748, 2870763221,
   3624381080, 310598401, 607225278, 1426881987,
   1925078388, 2162078206, 2614888103, 3248222580,
   3835390401, 4022224774, 264347078, 604807628,
   770255983, 1249150122, 1555081692, 1996064986,
   2554220882, 2821834349, 2952996808, 3210313671,
   3336571891, 3584528711, 113926993, 338241895,
   666307205, 773529912, 1294757372, 1396182291,
   1695183700, 1986661051, 2177026350, 2456956037,
   2730485921, 2820302411, 3259730800, 3345764771,
   3516065817, 3600352804, 4094571909, 275423344,
   430227734, 506948616, 659060556, 883997877,
   958139571, 1322822218, 1537002063, 1747873779,
   1955562222, 2024104815, 2227730452, 2361852424,
   2428436474, 2756734187, 3204031479, 3329325298]

/-- Working state of the SHA-256 compression function. -/
structure Sha256State where
  a : Nat
  b : Nat
  c : Nat
  d : Nat
  e : Nat
  f : Nat
  g : Nat
  h : Nat
deriving Repr, DecidableEq

/-- Initial hash value of SHA-256, in decimal. -/
def sha256Init : Sha256State :=
  ⟨1779033703, 3144134277, 1013904242, 2773480762,
   1359893119, 2600822924, 528734635, 1541459225⟩

/-- One round of the SHA-256 compression function, consuming a pair
of round constant and schedule word. -/
def sha256Round (s : Sha256State) (kw : Nat × Nat) : Sha256State :=
  let t1 := (s.h + bigSigma1 s.e + chF s.e s.f s.g + kw.1 + kw.2) % w32
  let t2 := (bigSigma0 s.a + majF s.a s.b s.c) % w32
  ⟨(t1 + t2) % w32, s.a, s.b, s.c, (s.d + t1) % w32, s.e, s.f, s.g⟩

/-- Message-schedule extension: `acc` holds the schedule so far in reverse,
`n` counts the remaining words to produce. -/
def sha256Extend : Nat → List Nat → List Nat
  | 0, acc => acc.reverse
  | n + 1, acc =>
    let word :=
      (smallSigma1 (acc.getD 1 0) + acc.getD 6 0 +
       smallSigma0 (acc.getD 14 0) + acc.getD 15 0) % w32
    sha256Extend n (word :: acc)

/-- Compression of a single 16-word block into the chaining state. -/
def sha256Compress (s : Sha256State) (block : List Nat) : Sha256State :=
  let sched := sha256Extend 48 block.reverse
  let t := (sha256K.zip sched).foldl sha256Round s
  ⟨(s.a + t.a) % w32, (s.b + t.b) % w32, (s.c + t.c) % w32, (s.d + t.d) % w32,
   (s.e + t.e) % w32, (s.f + t.f) % w32, (s.g + t.g) % w32, (s.h + t.h) % w32⟩

/-- Big-endian byte encoding of `v` into `k` bytes. -/
def beBytes : Nat → Nat → List Nat
  | 0, _ => []
  | k + 1, v => beBytes k (v / 256) ++ [v % 256]

/-- SHA-256 padding: append `0x80`, zero bytes, and the 64-bit big-endian
bit length, reaching a multiple of 64 bytes. -/
def sha256Pad (msg : List Nat) : List Nat :=
  let l := msg.length
  msg ++ [0x80] ++ List.replicate ((64 - (l + 9) % 64) % 64) 0 ++ beBytes 8 (l * 8)

/-- Grouping of a byte list into big-endian 32-bit words. -/
def toWords : List Nat → List Nat
  | b0 :: b1 :: b2 :: b3 :: rest =>
    (((b0 * 256 + b1) * 256 + b2) * 256 + b3) :: toWords rest
  | _ => []

/-- Iterated compression of 16-word blocks; `n` is the number of blocks. -/
def sha256Blocks : Nat → Sha256State → List Nat → Sha256State
  | 0, s, _ => s
  | n + 1, s, ws => sha256Blocks n (sha256Compress s (ws.take 16)) (ws.drop 16)

/-- SHA-256 digest of a byte list, as a list of 32 bytes. -/
def sha256 (msg : List Nat) : List Nat :=
  let ws := toWords (sha256Pad msg)
  let s := sha256Blocks (ws.length / 16) sha256Init ws
  beBytes 4 s.a ++ beBytes 4 s.b ++ beBytes 4 s.c ++ beBytes 4 s.d ++
  beBytes 4 s.e ++ beBytes 4 s.f ++ beBytes 4 s.g ++ beBytes 4 s.h

/-! ## `src/hash.rs` -/

/-- Embeds `Hash` (`Vec<u8>`) from `hash.rs`. -/
abbrev Hash := List Nat

/-- Embeds `hash_value` from `hash.rs`: SHA-256 of the element's bytes.
Elements are modelled by their `as_bytes()` byte sequences. -/
def hash_value (value : List Nat) : Hash := sha256 value

/-- Embeds `combine_hashes` from `hash.rs`: SHA-256 of the concatenation. -/
def combine_hashes (lhs rhs : Hash) : Hash := sha256 (lhs ++ rhs)

/-- Hexadecimal digit character for a value below 16, mirroring `{:02x}`. -/
def hexDigitChar (n : Nat) : Char :=
  Char.ofNat (if n < 10 then 48 + n else 87 + n)

/-- Embeds the tests' `as_hex_str` helper: lowercase hex of a byte list. -/
def as_hex_str (bytes : List Nat) : String :=
  String.mk (bytes.foldr
    (fun byte acc => hexDigitChar (byte / 16) :: hexDigitChar (byte % 16) :: acc) [])

/-! ## `src/proof.rs` -/

/-- Embeds `AnchoredHash` from `proof.rs`: a sibling hash tagged with the
side it occupies in the combination. -/
inductive AnchoredHash where
  | Left (hash : Hash)
  | Right (hash : Hash)
deriving Repr, DecidableEq

/-- Embeds `ExistenceProof` from `proof.rs`. -/
structure ExistenceProof where
  merkle_path : List AnchoredHash
deriving Repr, DecidableEq

/-- Embeds `ExistenceProof::from_path`. -/
def ExistenceProof.from_path (merkle_path : List AnchoredHash) : ExistenceProof :=
  ⟨merkle_path⟩

/-- Loop body of `ExistenceProof::is_valid`: combine the running hash with
the next anchored hash, on the side recorded in the tag. -/
def apply_anchored (hash : Hash) (next : AnchoredHash) : Hash :=
  match next with
  | AnchoredHash.Left next_hash => combine_hashes next_hash hash
  | AnchoredHash.Right next_hash => combine_hashes hash next_hash

/-- Embeds `ExistenceProof::is_valid` from `proof.rs`: fold the Merkle path
over the element's leaf hash and compare with the claimed root byte-wise. -/
def ExistenceProof.is_valid (p : ExistenceProof) (element : List Nat)
    (root_hash : Hash) : Bool :=
  p.merkle_path.foldl apply_anchored (hash_value element) == root_hash

/-! ## `src/tree.rs` -/

/-- Embeds `MerkleTree` from `tree.rs`. The `elements: PhantomData<T>`
field carries no data and is omitted; elements are byte sequences. -/
structure MerkleTree where
  layers : List (List Hash)
deriving Repr, DecidableEq

/-- Embeds `MerkleTree::root_hash`: the sole hash of the last layer, if any. -/
def MerkleTree.root_hash (t : MerkleTree) : Option Hash :=
  t.layers.getLast?.map (fun hashes => hashes.getD 0 [])

/-- Embeds `MerkleTree::make_empty`. -/
def MerkleTree.make_empty : MerkleTree := ⟨[]⟩

/-- One step of the layer derivation in `MerkleTree::from`: `chunks(2)`,
combining full pairs and self-combining a trailing unpaired hash. -/
def next_layer : List Hash → List Hash
  | [] => []
  | [a] => [combine_hashes a a]
  | a :: b :: rest => combine_hashes a b :: next_layer rest

/-- Embeds the `while layers.last().len() > 1` loop of `MerkleTree::from`;
`fuel` bounds the iteration count (the initial layer length suffices, as
each derived layer is strictly shorter). -/
def grow : Nat → List Hash → List (List Hash)
  | 0, cur => [cur]
  | fuel + 1, cur =>
    if 1 < cur.length then cur :: grow fuel (next_layer cur) else [cur]

/-- Embeds `MerkleTree::from`: hash the elements into the bottom layer,
then derive layers until a single hash remains. -/
def MerkleTree.fromElements (collection : List (List Nat)) : MerkleTree :=
  let bottom_layer := collection.map hash_value
  if bottom_layer.isEmpty then MerkleTree.make_empty
  else ⟨grow bottom_layer.length bottom_layer⟩

/-- Embeds `MerkleTree::sibling_index`, taking the layer contents directly. -/
def sibling_index (layer : List Hash) (index : Nat) : Nat :=
  if layer.length % 2 ≠ 0 ∧ index = layer.length - 1 then index
  else if index % 2 = 0 then index + 1 else index - 1

/-- Embeds `MerkleTree::anchored_hash`: tag an even index `Left`, odd `Right`. -/
def anchored_hash (layer : List Hash) (index : Nat) : AnchoredHash :=
  if index % 2 = 0 then AnchoredHash.Left (layer.getD index [])
  else AnchoredHash.Right (layer.getD index [])

/-- Embeds the coordinate walk of `MerkleTree::prove_existence`: while the
current `(layer, index)` is valid (`valid_coords`), collect the anchored
sibling hash and move to `(layer + 1, index / 2)`. The layer counter walks
the layer list structurally. -/
def walk : List (List Hash) → Nat → List AnchoredHash
  | [], _ => []
  | layer :: rest, index =>
    if index < layer.length then
      anchored_hash layer (sibling_index layer index) :: walk rest (index / 2)
    else []

/-- Embeds `MerkleTree::prove_existence`: collect the path, fail on an empty
path, otherwise drop the last (root-level) entry. -/
def MerkleTree.prove_existence (t : MerkleTree) (index : Nat) :
    Option ExistenceProof :=
  let merkle_path := walk t.layers index
  if merkle_path.isEmpty then none
  else some (ExistenceProof.from_path merkle_path.dropLast)

/-! ## `src/lib.rs` (monolithic variant) -/

namespace Mono

/-- Embeds `AnchoredHash` from `lib.rs`: sibling coordinates plus the hash. -/
structure AnchoredHash where
  layer : Nat
  index : Nat
  hash : Hash
deriving Repr, DecidableEq

/-- Embeds `ExistenceProof` from `lib.rs`. -/
structure ExistenceProof where
  merkle_path : List AnchoredHash
deriving Repr, DecidableEq

/-- Embeds `MerkleTree` from `lib.rs`, which stores the elements. -/
structure MerkleTree where
  layers : List (List Hash)
  elements : List (List Nat)
deriving Repr, DecidableEq

/-- Embeds `MerkleTree::root_hash` from `lib.rs`. -/
def MerkleTree.root_hash (t : MerkleTree) : Option Hash :=
  t.layers.getLast?.map (fun hashes => hashes.getD 0 [])

/-- Embeds `MerkleTree::make_empty` from `lib.rs`. -/
def MerkleTree.make_empty : MerkleTree := ⟨[], []⟩

/-- Embeds `MerkleTree::from` from `lib.rs`: identical layer construction,
but the element list is retained. The derivation loop is character-for-
character the same as in `tree.rs`, so `next_layer`/`grow` are shared. -/
def MerkleTree.fromElements (collection : List (List Nat)) : MerkleTree :=
  let elements := collection
  if elements.isEmpty then MerkleTree.make_empty
  else
    let bottom_layer := elements.map hash_value
    ⟨grow bottom_layer.length bottom_layer, elements⟩

/-- Embeds `MerkleTree::anchored_hash` from `lib.rs`: record the sibling's
layer number, index and hash. -/
def anchored_hash (ln : Nat) (layer : List Hash) (index : Nat) : AnchoredHash :=
  ⟨ln, index, layer.getD index []⟩

/-- Embeds the coordinate walk of `prove_existence` from `lib.rs`;
`sibling_index` and `valid_coords` are identical to `tree.rs`. -/
def walk : Nat → List (List Hash) → Nat → List AnchoredHash
  | _, [], _ => []
  | ln, layer :: rest, index =>
    if index < layer.length then
      anchored_hash ln layer (sibling_index layer index) :: walk (ln + 1) rest (index / 2)
    else []

/-- Embeds `MerkleTree::prove_existence` from `lib.rs`. -/
def MerkleTree.prove_existence (t : MerkleTree) (index : Nat) :
    Option ExistenceProof :=
  let merkle_path := walk 0 t.layers index
  if merkle_path.isEmpty then none
  else some ⟨merkle_path.dropLast⟩

/-- Embeds `ExistenceProof::is_valid` from `lib.rs`: the side is recovered
from the parity of the stored sibling index. -/
def ExistenceProof.is_valid (p : ExistenceProof) (element : List Nat)
    (root_hash : Hash) : Bool :=
  (p.merkle_path.foldl
    (fun hash next =>
      if next.index % 2 = 0 then combine_hashes next.hash hash
      else combine_hashes hash next.hash)
    (hash_value element)) == root_hash

end Mono

/-! ## Helper lemmas about the layer derivation -/

theorem next_layer_length : ∀ l : List Hash, (next_layer l).length = (l.length + 1) / 2
  | [] => rfl
  | [_] => by simp [next_layer]
  | _ :: _ :: rest => by
    simp only [next_layer, List.length_cons, next_layer_length rest]
    omega

theorem next_layer_getD : ∀ (l : List Hash) (j : Nat), 2 * j < l.length →
    (next_layer l).getD j [] =
      if 2 * j + 1 < l.length then
        combine_hashes (l.getD (2 * j) []) (l.getD (2 * j + 1) [])
      else combine_hashes (l.getD (2 * j) []) (l.getD (2 * j) [])
  | [], j, h => by simp at h
  | [a], j, h => by
    have hj : j = 0 := by simp at h; omega
    subst hj
    simp [next_layer]
  | a :: b :: rest, 0, h => by
    simp [next_layer]
  | a :: b :: rest, j + 1, h => by
    have h2 : 2 * j < rest.length := by simp at h; omega
    have ih := next_layer_getD rest j h2
    have e1 : 2 * (j + 1) = 2 * j + 1 + 1 := by omega
    have e2 : 2 * (j + 1) + 1 = 2 * j + 1 + 1 + 1 := by omega
    simp only [next_layer, List.getD_cons_succ, List.length_cons, e1, e2, ih]
    by_cases hc : 2 * j + 1 < rest.length
    · rw [if_pos hc, if_pos (by omega : 2 * j + 1 + 1 + 1 < rest.length + 1 + 1)]
    · rw [if_neg hc, if_neg (by omega : ¬ 2 * j + 1 + 1 + 1 < rest.length + 1 + 1)]

/-- Core step lemma: the anchored sibling collected at a valid position,
combined with the hash at that position, gives exactly the parent hash in
the derived layer. -/
theorem step_eq (L : List Hash) (idx : Nat) (h : idx < L.length) :
    apply_anchored (L.getD idx []) (anchored_hash L (sibling_index L idx)) =
      (next_layer L).getD (idx / 2) [] := by
  unfold sibling_index anchored_hash
  by_cases hlast : L.length % 2 ≠ 0 ∧ idx = L.length - 1
  · have hidx_even : idx % 2 = 0 := by omega
    rw [if_pos hlast, if_pos hidx_even,
        next_layer_getD L (idx / 2) (by omega),
        if_neg (by omega : ¬ 2 * (idx / 2) + 1 < L.length),
        (by omega : 2 * (idx / 2) = idx)]
    rfl
  · rw [if_neg hlast]
    by_cases he : idx % 2 = 0
    · rw [if_pos he, if_neg (by omega : ¬ (idx + 1) % 2 = 0),
          next_layer_getD L (idx / 2) (by omega),
          if_pos (by omega : 2 * (idx / 2) + 1 < L.length),
          (by omega : 2 * (idx / 2) + 1 = idx + 1), (by omega : 2 * (idx / 2) = idx)]
      rfl
    · rw [if_neg he, if_pos (by omega : (idx - 1) % 2 = 0),
          next_layer_getD L (idx / 2) (by omega),
          if_pos (by omega : 2 * (idx / 2) + 1 < L.length),
          (by omega : 2 * (idx / 2) + 1 = idx), (by omega : 2 * (idx / 2) = idx - 1)]
      rfl

/-! ## The pyramid invariant -/

/-- Chained pyramids: each layer is derived from the previous by
`next_layer`, every non-top layer has at least two hashes, and the top
layer has exactly one. -/
def Chained : List (List Hash) → Prop
  | [] => False
  | [l] => l.length = 1
  | l :: l' :: rest => 1 < l.length ∧ l' = next_layer l ∧ Chained (l' :: rest)

theorem grow_cons (fuel : Nat) (cur : List Hash) :
    ∃ t, grow fuel cur = cur :: t := by
  cases fuel with
  | zero => exact ⟨[], rfl⟩
  | succ n =>
    by_cases h : 1 < cur.length
    · exact ⟨grow n (next_layer cur), by simp [grow, h]⟩
    · exact ⟨[], by simp [grow, h]⟩

theorem grow_chained : ∀ (fuel : Nat) (cur : List Hash), cur ≠ [] →
    cur.length ≤ fuel → Chained (grow fuel cur)
  | 0, cur, hne, hf => by
    have := List.length_pos.mpr hne
    omega
  | fuel + 1, cur, hne, hf => by
    by_cases h : 1 < cur.length
    · have hlen := next_layer_length cur
      have hne' : next_layer cur ≠ [] := by
        intro hc
        rw [hc] at hlen
        simp at hlen
        omega
      have hf' : (next_layer cur).length ≤ fuel := by omega
      have ih := grow_chained fuel (next_layer cur) hne' hf'
      obtain ⟨t, ht⟩ := grow_cons fuel (next_layer cur)
      rw [ht] at ih
      simp only [grow, if_pos h, ht]
      exact ⟨h, rfl, ih⟩
    · have h1 : cur.length = 1 := by
        have := List.length_pos.mpr hne
        omega
    
      simp only [grow, if_neg h, Chained]
      exact h1

theorem chained_getLast : ∀ ls, Chained ls →
    ∃ top, ls.getLast? = some top ∧ top.length = 1
  | [], h => absurd h (by simp [Chained])
  | [l], h => ⟨l, rfl, h⟩
  | l :: l' :: rest, h => by
    obtain ⟨-, -, hc⟩ := h
    obtain ⟨top, ht, h1⟩ := chained_getLast (l' :: rest) hc
    exact ⟨top, by rw [List.getLast?_cons_cons]; exact ht, h1⟩

theorem chained_getD_succ : ∀ ls, Chained ls → ∀ i, i + 1 < ls.length →
    ls.getD (i + 1) [] = next_layer (ls.getD i [])
  | [], h, _, _ => absurd h (by simp [Chained])
  | [l], _, i, hi => by simp at hi
  | l :: l' :: rest, h, 0, hi => by
    obtain ⟨-, h2, -⟩ := h
    simpa using h2
  | l :: l' :: rest, h, i + 1, hi => by
    obtain ⟨-, -, hc⟩ := h
    have := chained_getD_succ (l' :: rest) hc i (by simp at hi ⊢; omega)
    simpa using this

theorem getLastD_of_getLast? {α : Type} (l : List α) (top d : α)
    (h : l.getLast? = some top) : l.getLastD d = top := by
  rw [List.getLastD_eq_getLast?, h]
  rfl

/-- Walk correctness: a valid start index yields a non-empty path whose
fold (after dropping the final root-level entry) recomputes the top hash. -/
theorem walk_fold : ∀ (rest : List (List Hash)) (L : List Hash) (idx : Nat),
    Chained (L :: rest) → idx < L.length →
    walk (L :: rest) idx ≠ [] ∧
    List.foldl apply_anchored (L.getD idx []) ((walk (L :: rest) idx).dropLast) =
      ((L :: rest).getLastD []).getD 0 []
  | [], L, idx, hc, hidx => by
    have h1 : L.length = 1 := hc
    have hidx0 : idx = 0 := by omega
    subst hidx0
    constructor
    · simp [walk, hidx]
    · simp [walk, hidx, List.dropLast]
  | L' :: rest', L, idx, hc, hidx => by
    obtain ⟨h1, h2, h3⟩ := hc
    have hlen : L'.length = (L.length + 1) / 2 := by rw [h2]; exact next_layer_length L
    have hidx' : idx / 2 < L'.length := by omega
    obtain ⟨ihne, ihfold⟩ := walk_fold rest' L' (idx / 2) h3 hidx'
    have hw : walk (L :: L' :: rest') idx =
        anchored_hash L (sibling_index L idx) :: walk (L' :: rest') (idx / 2) := by
      simp [walk, hidx]
    constructor
    · simp [hw]
    · rw [hw, List.dropLast_cons_of_ne_nil ihne, List.foldl_cons, step_eq L idx hidx,
          ← h2, ihfold]
      rw [List.getLastD_eq_getLast?, List.getLastD_eq_getLast?,
          List.getLast?_cons_cons]

/-! ## Facts about `MerkleTree.fromElements` -/

theorem fromElements_layers (elements : List (List Nat)) (hne : elements ≠ []) :
    (MerkleTree.fromElements elements).layers =
      grow (elements.map hash_value).length (elements.map hash_value) := by
  rw [MerkleTree.fromElements]
  simp only [List.isEmpty_eq_true, List.map_eq_nil_iff]
  rw [if_neg hne]

theorem fromElements_chained (elements : List (List Nat)) (hne : elements ≠ []) :
    Chained (MerkleTree.fromElements elements).layers := by
  rw [fromElements_layers elements hne]
  exact grow_chained _ _ (by simpa using hne) le_rfl

theorem fromElements_layers_cons (elements : List (List Nat)) (hne : elements ≠ []) :
    ∃ t, (MerkleTree.fromElements elements).layers = (elements.map hash_value) :: t := by
  rw [fromElements_layers elements hne]
  exact grow_cons _ _

theorem getD_map_hash (elements : List (List Nat)) (index : Nat)
    (h : index < elements.length) :
    (elements.map hash_value).getD index [] = hash_value (elements.getD index []) := by
  rw [List.getD_eq_getElem?_getD, List.getD_eq_getElem?_getD, List.getElem?_map,
      List.getElem?_eq_getElem h]
  rfl

theorem root_hash_of_chained (t : MerkleTree) (hc : Chained t.layers) :
    t.root_hash = some ((t.layers.getLastD []).getD 0 []) := by
  obtain ⟨top, htop, -⟩ := chained_getLast t.layers hc
  rw [MerkleTree.root_hash, htop, getLastD_of_getLast? _ _ _ htop]
  rfl

/-! ## Claim theorems -/

/-- C1: for every non-empty element sequence and every index in bounds, the
constructed tree yields some existence proof for that index, and verifying
that proof with the indexed element against the tree's root hash succeeds. -/
theorem round_trip (elements : List (List Nat)) (index : Nat)
    (hne : elements ≠ []) (hidx : index < elements.length) :
    ∃ p r, (MerkleTree.fromElements elements).prove_existence index = some p ∧
      (MerkleTree.fromElements elements).root_hash = some r ∧
      p.is_valid (elements.getD index []) r = true := by
  obtain ⟨t, ht⟩ := fromElements_layers_cons elements hne
  have hc := fromElements_chained elements hne
  rw [ht] at hc
  have hidx' : index < (elements.map hash_value).length := by simpa using hidx
  obtain ⟨hwne, hfold⟩ := walk_fold t (elements.map hash_value) index hc hidx'
  refine ⟨ExistenceProof.from_path ((walk ((elements.map hash_value) :: t) index).dropLast),
    (((elements.map hash_value) :: t).getLastD []).getD 0 [], ?_, ?_, ?_⟩
  · rw [MerkleTree.prove_existence, ht]
    simp only [List.isEmpty_eq_true]
    rw [if_neg hwne]
  · rw [root_hash_of_chained _ (fromElements_chained elements hne), ht]
  · rw [ExistenceProof.is_valid]
    simp only [ExistenceProof.from_path]
    rw [← getD_map_hash elements index hidx, hfold]
    exact beq_self_eq_true _

/-- C1 witness at a concrete two-element tree and index 0. -/
theorem round_trip_witness :
    ∃ p r, (MerkleTree.fromElements [[49], [50]]).prove_existence 0 = some p ∧
      (MerkleTree.fromElements [[49], [50]]).root_hash = some r ∧
      p.is_valid ([[49], [50]].getD 0 []) r = true :=
  round_trip [[49], [50]] 0 (by decide) (by decide)

theorem prove_existence_none_iff (t : MerkleTree) (index : Nat) :
    t.prove_existence index = none ↔
      t.layers = [] ∨ (t.layers.headD []).length ≤ index := by
  obtain ⟨layers⟩ := t
  cases layers with
  | nil => simp [MerkleTree.prove_existence, walk]
  | cons L rest =>
    by_cases h : index < L.length
    · simp [MerkleTree.prove_existence, walk, h]
    · simp [MerkleTree.prove_existence, walk, h]
      omega

/-- C4: proof extraction fails (returns `none`) exactly when the index is
out of bounds for the bottom layer or the tree is empty; on a tree built
from `n` elements this is exactly when `n ≤ index`. -/
theorem prove_existence_absence (t : MerkleTree) (index : Nat) :
    (t.prove_existence index = none ↔
      t.layers = [] ∨ (t.layers.headD []).length ≤ index) ∧
    (∀ elements : List (List Nat),
      (MerkleTree.fromElements elements).prove_existence index = none ↔
        elements.length ≤ index) := by
  refine ⟨prove_existence_none_iff t index, ?_⟩
  intro elements
  rw [prove_existence_none_iff]
  by_cases hne : elements = []
  · subst hne
    simp [MerkleTree.fromElements, MerkleTree.make_empty]
  · obtain ⟨t', ht⟩ := fromElements_layers_cons elements hne
    rw [ht]
    simp [hne]

/-- C5: the layer list of a constructed tree is empty exactly for empty
input; adjacent layer lengths satisfy the halving (ceiling) relation; the
top layer of a non-empty tree has exactly one hash. Immutability holds by
construction: every operation of the embedding is a pure function. -/
theorem structural_invariant (elements : List (List Nat)) :
    ((MerkleTree.fromElements elements).layers = [] ↔ elements = []) ∧
    (∀ i, i + 1 < (MerkleTree.fromElements elements).layers.length →
      ((MerkleTree.fromElements elements).layers.getD (i + 1) []).length =
        (((MerkleTree.fromElements elements).layers.getD i []).length + 1) / 2) ∧
    (elements ≠ [] →
      ((MerkleTree.fromElements elements).layers.getLastD []).length = 1) := by
  refine ⟨⟨?_, ?_⟩, ?_, ?_⟩
  · intro h
    by_contra hne
    obtain ⟨t, ht⟩ := fromElements_layers_cons elements hne
    rw [ht] at h
    exact absurd h (by simp)
  · intro h
    subst h
    rfl
  · intro i hi
    by_cases hne : elements = []
    · subst hne
      simp [MerkleTree.fromElements, MerkleTree.make_empty] at hi
    · have hc := fromElements_chained elements hne
      rw [chained_getD_succ _ hc i hi, next_layer_length]
  · intro hne
    obtain ⟨top, htop, h1⟩ := chained_getLast _ (fromElements_chained elements hne)
    rw [getLastD_of_getLast? _ _ _ htop]
    exact h1

/-- C2: layer 0 of a constructed tree is the list of leaf hashes in input
order; every entry of each derived layer combines the consecutive pair
below it, self-combining a trailing unpaired hash; the derivation stops at
a single-hash layer. -/
theorem construction_spec (elements : List (List Nat)) (hne : elements ≠ []) :
    (MerkleTree.fromElements elements).layers.headD [] = elements.map hash_value ∧
    (∀ i, i + 1 < (MerkleTree.fromElements elements).layers.length →
      ∀ j, j < ((MerkleTree.fromElements elements).layers.getD (i + 1) []).length →
        ((MerkleTree.fromElements elements).layers.getD (i + 1) []).getD j [] =
          if 2 * j + 1 < ((MerkleTree.fromElements elements).layers.getD i []).length then
            combine_hashes
              (((MerkleTree.fromElements elements).layers.getD i []).getD (2 * j) [])
              (((MerkleTree.fromElements elements).layers.getD i []).getD (2 * j + 1) [])
          else
            combine_hashes
              (((MerkleTree.fromElements elements).layers.getD i []).getD (2 * j) [])
              (((MerkleTree.fromElements elements).layers.getD i []).getD (2 * j) [])) ∧
    ((MerkleTree.fromElements elements).layers.getLastD []).length = 1 := by
  obtain ⟨t, ht⟩ := fromElements_layers_cons elements hne
  have hc := fromElements_chained elements hne
  refine ⟨by rw [ht]; rfl, ?_, ?_⟩
  · intro i hi j hj
    rw [chained_getD_succ _ hc i hi] at hj ⊢
    have h2j : 2 * j < ((MerkleTree.fromElements elements).layers.getD i []).length := by
      rw [next_layer_length] at hj
      omega
    exact next_layer_getD _ j h2j
  · obtain ⟨top, htop, h1⟩ := chained_getLast _ hc
    rw [getLastD_of_getLast? _ _ _ htop]
    exact h1

/-- C2 witness at a concrete three-element tree. -/
theorem construction_spec_witness :
    (MerkleTree.fromElements [[49], [50], [51]]).layers.headD [] =
      [[49], [50], [51]].map hash_value :=
  (construction_spec [[49], [50], [51]] (by decide)).1

/-- C6: at a valid position, the sibling is the position itself exactly for
the last index of an odd-length layer, otherwise the parity partner; the
collected anchored hash is tagged `Left` for an even sibling index and
`Right` for an odd one. -/
theorem sibling_selection (L : List Hash) (pos : Nat) (hpos : pos < L.length) :
    (sibling_index L pos =
      if L.length % 2 = 1 ∧ pos = L.length - 1 then pos
      else if pos % 2 = 0 then pos + 1 else pos - 1) ∧
    (anchored_hash L (sibling_index L pos) =
      if sibling_index L pos % 2 = 0 then
        AnchoredHash.Left (L.getD (sibling_index L pos) [])
      else AnchoredHash.Right (L.getD (sibling_index L pos) [])) := by
  constructor
  · simp only [sibling_index]
    split_ifs <;> omega
  · rfl

/-- C6 witness on a two-hash layer at position 0. -/
theorem sibling_selection_witness :
    sibling_index [[0], [1]] 0 = 1 :=
  ((sibling_selection [[0], [1]] 0 (by decide)).1).trans (by decide)

/-- C7: verification folds the proof entries in order over the element's
leaf hash, combining on the side given by the tag, and succeeds exactly
when the folded result equals the claimed root byte-for-byte. -/
theorem is_valid_semantics (p : ExistenceProof) (element : List Nat) (root : Hash) :
    p.is_valid element root = true ↔
      List.foldl (fun current next =>
        match next with
        | AnchoredHash.Left h => combine_hashes h current
        | AnchoredHash.Right h => combine_hashes current h)
        (hash_value element) p.merkle_path = root := by
  rw [ExistenceProof.is_valid, beq_iff_eq]
  rfl

/-- C8: the root hash is absent exactly for an empty layer list (as arises
from empty input or `make_empty`), and otherwise is the single hash of the
topmost layer; absence is an `Option`, not an error. -/
theorem root_hash_spec :
    (∀ t : MerkleTree, t.root_hash = none ↔ t.layers = []) ∧
    (MerkleTree.fromElements []).root_hash = none ∧
    MerkleTree.make_empty.root_hash = none ∧
    (∀ elements : List (List Nat), elements ≠ [] → ∃ top,
      (MerkleTree.fromElements elements).layers.getLast? = some top ∧
      top.length = 1 ∧
      (MerkleTree.fromElements elements).root_hash = some (top.getD 0 [])) := by
  refine ⟨?_, rfl, rfl, ?_⟩
  · intro t
    rw [MerkleTree.root_hash, Option.map_eq_none']
    exact List.getLast?_eq_none_iff
  · intro elements hne
    obtain ⟨top, htop, h1⟩ := chained_getLast _ (fromElements_chained elements hne)
    refine ⟨top, htop, h1, ?_⟩
    rw [MerkleTree.root_hash, htop]
    rfl

/-- C9: a single-element tree yields a proof with an empty sibling path at
index 0, and a proof with an empty path validates an element against a
claimed root exactly when the element's leaf hash equals that root. -/
theorem single_element_proof :
    (∀ e : List Nat, (MerkleTree.fromElements [e]).prove_existence 0 =
      some (ExistenceProof.from_path [])) ∧
    (∀ (element : List Nat) (root : Hash),
      (ExistenceProof.from_path []).is_valid element root = true ↔
        hash_value element = root) := by
  constructor
  · intro e
    rfl
  · intro element root
    rw [ExistenceProof.is_valid, beq_iff_eq]
    rfl

/-! ## Equivalence of the two implementation variants -/

/-- Translation from the monolithic variant's coordinate-carrying anchored
hash to the modular variant's side-tagged one, by the parity rule the
monolithic `is_valid` applies. -/
def toSided (a : Mono.AnchoredHash) : AnchoredHash :=
  if a.index % 2 = 0 then AnchoredHash.Left a.hash else AnchoredHash.Right a.hash

theorem walk_toSided : ∀ (ls : List (List Hash)) (ln index : Nat),
    walk ls index = (Mono.walk ln ls index).map toSided
  | [], _, _ => rfl
  | L :: rest, ln, index => by
    by_cases h : index < L.length
    · simp only [walk, Mono.walk, if_pos h, List.map_cons]
      rw [walk_toSided rest (ln + 1) (index / 2)]
      rfl
    · simp [walk, Mono.walk, h]

theorem fromElements_layers_eq (elements : List (List Nat)) :
    (Mono.MerkleTree.fromElements elements).layers =
      (MerkleTree.fromElements elements).layers := by
  by_cases h : elements = []
  · subst h
    rfl
  · simp [Mono.MerkleTree.fromElements, MerkleTree.fromElements,
      List.isEmpty_eq_true, h]

theorem foldl_toSided (l : List Mono.AnchoredHash) (init : Hash) :
    List.foldl apply_anchored init (l.map toSided) =
      List.foldl (fun hash next =>
        if next.index % 2 = 0 then combine_hashes next.hash hash
        else combine_hashes hash next.hash) init l := by
  rw [List.foldl_map]
  congr 1
  funext acc a
  by_cases h : a.index % 2 = 0 <;> simp [toSided, apply_anchored, h]

/-- C10: for every element sequence, index, element and claimed root, the
monolithic variant (`lib.rs`) and the modular variant (`tree.rs` and
`proof.rs`) agree on the root hash, on presence of the existence proof, and
on the verification verdict of the proofs they produce. -/
theorem variants_equivalent (elements : List (List Nat)) (index : Nat)
    (element : List Nat) (root : Hash) :
    (Mono.MerkleTree.fromElements elements).root_hash =
      (MerkleTree.fromElements elements).root_hash ∧
    ((Mono.MerkleTree.fromElements elements).prove_existence index).isSome =
      ((MerkleTree.fromElements elements).prove_existence index).isSome ∧
    ((Mono.MerkleTree.fromElements elements).prove_existence index).map
        (fun p => p.is_valid element root) =
      ((MerkleTree.fromElements elements).prove_existence index).map
        (fun p => p.is_valid element root) := by
  have hl := fromElements_layers_eq elements
  refine ⟨?_, ?_, ?_⟩
  · rw [Mono.MerkleTree.root_hash, MerkleTree.root_hash, hl]
  · rw [Mono.MerkleTree.prove_existence, MerkleTree.prove_existence, hl,
        walk_toSided _ 0 index]
    by_cases h : Mono.walk 0 (MerkleTree.fromElements elements).layers index = []
    · simp [h]
    · simp [h]
  · rw [Mono.MerkleTree.prove_existence, MerkleTree.prove_existence, hl,
        walk_toSided _ 0 index]
    by_cases h : Mono.walk 0 (MerkleTree.fromElements elements).layers index = []
    · simp [h]
    · simp only [List.isEmpty_eq_true, List.map_eq_nil_iff, if_neg h,
        Option.map_some']
      congr 1
      rw [Mono.ExistenceProof.is_valid, ExistenceProof.is_valid]
      simp only [ExistenceProof.from_path]
      rw [← List.map_dropLast, foldl_toSided]

/-! ## Concrete test vectors -/

set_option maxRecDepth 1000000 in
/-- C3 counterexample: the claim quotes 63-hex-digit strings, dropping the
final hex digit of each 32-byte SHA-256 root; already the single-element
tree's root renders to a 64-digit string, not the quoted one. -/
theorem concrete_vectors_counterexample :
    ¬ ((MerkleTree.fromElements [[49], [50], [51], [52]]).root_hash.map as_hex_str =
        some "cd53a2ce68e6476c29512ea53c395c7f5d8fbcb4614d89298db14e2a5bdb545" ∧
      (MerkleTree.fromElements [[49]]).root_hash.map as_hex_str =
        some "6b86b273ff34fce19d6b804eff5a3f5747ada4eaa22f1d49c01e52ddb7875b4") :=
  fun h => absurd h.2 (by decide)

set_option maxRecDepth 1000000 in
/-- C3 (amended): with SHA-256 and the ASCII bytes of the characters 1 to 4,
the root of the four-element tree renders in hex to the full 64-digit test
string ending in 6, the root of the singleton tree renders to the full
64-digit test string ending in b, and the latter root is exactly SHA-256 of
the single byte 49. -/
theorem concrete_vectors :
    (MerkleTree.fromElements [[49], [50], [51], [52]]).root_hash.map as_hex_str =
      some "cd53a2ce68e6476c29512ea53c395c7f5d8fbcb4614d89298db14e2a5bdb5456" ∧
    (MerkleTree.fromElements [[49]]).root_hash.map as_hex_str =
      some "6b86b273ff34fce19d6b804eff5a3f5747ada4eaa22f1d49c01e52ddb7875b4b" ∧
    (MerkleTree.fromElements [[49]]).root_hash = some (sha256 [49]) :=
  ⟨by decide, by decide, by decide⟩
